import Mathlib

/-!
Shallow embedding of the Soroban vault contract (`src/lib.rs`) and proofs
about its share-accounting, authorization and replay-protection logic.

Modelling conventions:
* `soroban_auth::Identifier` values are opaque; only equality on them matters
  here, so identities are modelled as `Nat`.
* `BytesN<32>` token ids are likewise opaque and modelled as `Nat`.
* `BigInt` is an arbitrary-precision signed integer, modelled as `Int`.
  Its `/` truncates toward zero (`Int.tdiv`) and division by zero aborts
  the host call, modelled by `bigDiv` returning an error.
* Contract storage (`e.data()`): `TotSupply`, `Balance(id)` and `Nonce(id)`
  read with `unwrap_or(zero)`, so they are modelled as total data with
  default 0 (`totSupply : Int`, an association list for balances, a total
  function for nonces); `Admin` and `TokenId` have no default
  (`get_unchecked` panics when unset) and are modelled as `Option`.
* A panicking contract call aborts the whole transaction and persists
  nothing, so every operation is a pure function returning `Except Err σ`:
  on `error` no state is produced.
* `get_token_balance` queries the external token contract for the vault's
  own balance; it is passed to `deposit`/`withdraw` as an explicit
  `tokenBalance : Int` argument.
-/

namespace Vault

/-- The distinct panic sites of the contract, as an error taxonomy. -/
inductive Err where
  | alreadyInitialized
  | notInitialized
  | unauthorized
  | invalidNonce
  | insufficientShares
  | divByZero
  deriving DecidableEq, Repr

/-- `soroban_auth::Signature`: either `Signature::Invoker` (resolving to the
transaction's own caller, carried here as the `caller` field) or a signed
variant (`Ed25519`/`Account`), which resolves to the identity derived from
the signature payload. -/
inductive Sig where
  | invoker (caller : Nat)
  | signed (id : Nat)
  deriving DecidableEq, Repr

/-- `Signature::identifier(&env)`: the identity an authorization proof
resolves to. -/
def Sig.identifier : Sig → Nat
  | .invoker c => c
  | .signed id => id

/-- The contract's persisted state (the `DataKey`-indexed store). -/
structure VState where
  admin : Option Nat
  tokenId : Option Nat
  totSupply : Int
  balances : List (Nat × Int)
  nonces : Nat → Int

/-- The empty store the contract starts from. -/
def initState : VState := ⟨none, none, 0, [], fun _ => 0⟩

/-- Balance lookup with default 0 (`get(key).unwrap_or(zero)`); reads the
first entry for the identity. -/
def getBal : List (Nat × Int) → Nat → Int
  | [], _ => 0
  | (k, v) :: t, id => if k = id then v else getBal t id

/-- Balance store (`set(key, value)`): replaces the first entry for the
identity, or appends one. -/
def setBal : List (Nat × Int) → Nat → Int → List (Nat × Int)
  | [], id, v => [(id, v)]
  | (k, w) :: t, id, v => if k = id then (id, v) :: t else (k, w) :: setBal t id v

/-- Sum of all stored per-identity share balances. -/
def sumBal (l : List (Nat × Int)) : Int := (l.map Prod.snd).sum

/-- `get_tot_supply`: stored total share supply, default 0. -/
def get_tot_supply (s : VState) : Int := s.totSupply

/-- `get_id_balance`: stored share balance of an identity, default 0. -/
def get_id_balance (s : VState) (id : Nat) : Int := getBal s.balances id

/-- `read_nonce`: stored nonce of an identity, default 0. -/
def read_nonce (s : VState) (id : Nat) : Int := s.nonces id

/-- `BigInt` division: truncating toward zero, aborting on a zero divisor. -/
def bigDiv (a b : Int) : Except Err Int :=
  if b = 0 then .error .divByZero else .ok (a.tdiv b)

/-- `check_admin`: the resolved identity must equal the stored administrator;
`read_administrator` uses `get_unchecked`, which aborts when no administrator
is stored. -/
def check_admin (s : VState) (auth : Sig) : Except Err Unit :=
  match s.admin with
  | none => .error .notInitialized
  | some a => if auth.identifier = a then .ok () else .error .unauthorized

/-- `verify_and_consume_nonce`: for `Signature::Invoker` the claimed nonce
must be zero and nothing is stored; otherwise the claimed nonce must equal
the identity's stored nonce, which is then incremented by 1. -/
def verify_and_consume_nonce (s : VState) (auth : Sig) (expected : Int) :
    Except Err VState :=
  match auth with
  | .invoker _ => if expected = 0 then .ok s else .error .invalidNonce
  | .signed id =>
      let nonce := read_nonce s id
      if nonce = expected then
        .ok { s with nonces := fun j => if j = id then nonce + 1 else s.nonces j }
      else .error .invalidNonce

/-- `mint_shares`: `total_supply += shares; balance[dst] += shares`. -/
def mint_shares (s : VState) (dst : Nat) (shares : Int) : VState :=
  { s with
    totSupply := get_tot_supply s + shares
    balances := setBal s.balances dst (get_id_balance s dst + shares) }

/-- `burn_shares`: `assert!(shares < balance[dst])`, then
`total_supply -= shares; balance[dst] -= shares`. -/
def burn_shares (s : VState) (dst : Nat) (shares : Int) : Except Err VState :=
  if shares < get_id_balance s dst then
    .ok { s with
          totSupply := get_tot_supply s - shares
          balances := setBal s.balances dst (get_id_balance s dst - shares) }
  else .error .insufficientShares

/-- `VaultContract::initialize` (`initialize` is a Lean keyword, hence the
suffix): fails if an administrator is already stored, otherwise persists the
administrator and the token id. -/
def initializeVault (s : VState) (admin : Nat) (tokenId : Nat) :
    Except Err VState :=
  if s.admin.isSome then .error .alreadyInitialized
  else .ok { s with admin := some admin, tokenId := some tokenId }

/-- `VaultContract::deposit`: admin check, nonce check, then mint
`amount` shares when supply is zero, else
`(amount * tot_supply) / (get_token_balance(e) - amount)` shares.
`tokenBalance` is the value `get_token_balance` returns, i.e. the vault's
token balance at the moment of the read (after the deposited funds landed). -/
def deposit (s : VState) (tokenBalance : Int) (auth : Sig) (authNonce : Int)
    (frm : Nat) (amount : Int) : Except Err VState :=
  match check_admin s auth with
  | .error e => .error e
  | .ok _ =>
    match verify_and_consume_nonce s auth authNonce with
    | .error e => .error e
    | .ok s1 =>
      if get_tot_supply s1 = 0 then .ok (mint_shares s1 frm amount)
      else
        match bigDiv (amount * get_tot_supply s1) (tokenBalance - amount) with
        | .error e => .error e
        | .ok shares => .ok (mint_shares s1 frm shares)

/-- `VaultContract::withdraw`: admin check, nonce check, then
`amount = (shares * get_token_balance(e)) / tot_supply`, then
`burn_shares(to, shares)`, then `transfer(to, amount)`.  The transferred
amount is returned alongside the new state. -/
def withdraw (s : VState) (tokenBalance : Int) (auth : Sig) (authNonce : Int)
    (dst : Nat) (shares : Int) : Except Err (VState × Int) :=
  match check_admin s auth with
  | .error e => .error e
  | .ok _ =>
    match verify_and_consume_nonce s auth authNonce with
    | .error e => .error e
    | .ok s1 =>
      match bigDiv (shares * tokenBalance) (get_tot_supply s1) with
      | .error e => .error e
      | .ok amount =>
        match burn_shares s1 dst shares with
        | .error e => .error e
        | .ok s2 => .ok (s2, amount)

/-- `VaultContract::get_shares`: stored balance or zero. -/
def get_shares (s : VState) (id : Nat) : Int := getBal s.balances id

/-- One successful public operation, with the token balance observed by the
operation (`B` for deposit, withdraw) left unconstrained: this is the raw
transition system generated by "any sequence of initialize/deposit/withdraw
operations". -/
inductive Step : VState → VState → Prop
  | init (s s' : VState) (a t : Nat) :
      initializeVault s a t = .ok s' → Step s s'
  | dep (s s' : VState) (B : Int) (auth : Sig) (n : Int) (frm : Nat) (amt : Int) :
      deposit s B auth n frm amt = .ok s' → Step s s'
  | wd (s s' : VState) (B : Int) (auth : Sig) (n : Int) (dst : Nat) (sh amt : Int) :
      withdraw s B auth n dst sh = .ok (s', amt) → Step s s'

/-- States reachable from the empty store by successful operations. -/
inductive Reachable : VState → Prop
  | base : Reachable initState
  | step {s s' : VState} : Reachable s → Step s s' → Reachable s'

/-- Like `Step`, but each deposit's amount is non-negative and the observed
post-deposit token balance is at least that amount (the deposited funds
really landed). -/
inductive StepNN : VState → VState → Prop
  | init (s s' : VState) (a t : Nat) :
      initializeVault s a t = .ok s' → StepNN s s'
  | dep (s s' : VState) (B : Int) (auth : Sig) (n : Int) (frm : Nat) (amt : Int) :
      0 ≤ amt → amt ≤ B → deposit s B auth n frm amt = .ok s' → StepNN s s'
  | wd (s s' : VState) (B : Int) (auth : Sig) (n : Int) (dst : Nat) (sh amt : Int) :
      withdraw s B auth n dst sh = .ok (s', amt) → StepNN s s'

/-- States reachable using only deposits whose amounts are non-negative and
have landed in the observed token balance. -/
inductive ReachableNN : VState → Prop
  | base : ReachableNN initState
  | step {s s' : VState} : ReachableNN s → StepNN s s' → ReachableNN s'

/-- Contract state paired with the vault's actual balance in the external
token contract. -/
abbrev GState := VState × Int

/-- Environment-faithful transitions tracking the vault's token balance:
yield arrives as non-negative external transfers, a deposit of `amt ≥ 0`
moves `amt` into the vault before the contract reads the balance, and a
withdraw moves the computed amount out (the token contract rejects negative
transfer amounts). -/
inductive GStep : GState → GState → Prop
  | init (s s' : VState) (v : Int) (a t : Nat) :
      initializeVault s a t = .ok s' → GStep (s, v) (s', v)
  | yield (s : VState) (v k : Int) :
      0 ≤ k → GStep (s, v) (s, v + k)
  | dep (s s' : VState) (v : Int) (auth : Sig) (n : Int) (frm : Nat) (amt : Int) :
      0 ≤ amt → deposit s (v + amt) auth n frm amt = .ok s' →
      GStep (s, v) (s', v + amt)
  | wd (s s' : VState) (v : Int) (auth : Sig) (n : Int) (dst : Nat) (sh amt : Int) :
      withdraw s v auth n dst sh = .ok (s', amt) → 0 ≤ amt →
      GStep (s, v) (s', v - amt)

/-- Reachability for the environment-faithful system, starting with an empty
vault token balance. -/
inductive GReachable : GState → Prop
  | base : GReachable (initState, 0)
  | step {g g' : GState} : GReachable g → GStep g g' → GReachable g'

/-! ### Association-list lemmas -/

theorem getBal_setBal_self (l : List (Nat × Int)) (id : Nat) (v : Int) :
    getBal (setBal l id v) id = v := by
  induction l with
  | nil => simp [setBal, getBal]
  | cons p t ih =>
      obtain ⟨k, w⟩ := p
      by_cases hk : k = id
      · simp [setBal, getBal, hk]
      · simp [setBal, getBal, hk, ih]

theorem getBal_setBal_ne (l : List (Nat × Int)) {id j : Nat} (v : Int)
    (h : j ≠ id) : getBal (setBal l id v) j = getBal l j := by
  induction l with
  | nil =>
      simp only [setBal, getBal]
      rw [if_neg fun e => h e.symm]
  | cons p t ih =>
      obtain ⟨k, w⟩ := p
      simp only [setBal]
      by_cases hk : k = id
      · subst hk
        rw [if_pos rfl]
        simp only [getBal]
        rw [if_neg fun e => h e.symm, if_neg fun e => h e.symm]
      · rw [if_neg hk]
        simp only [getBal]
        by_cases hj : k = j
        · rw [if_pos hj, if_pos hj]
        · rw [if_neg hj, if_neg hj, ih]

theorem sumBal_setBal (l : List (Nat × Int)) (id : Nat) (v : Int) :
    sumBal (setBal l id v) = sumBal l - getBal l id + v := by
  induction l with
  | nil => simp [setBal, getBal, sumBal]
  | cons p t ih =>
      obtain ⟨k, w⟩ := p
      by_cases hk : k = id
      · simp [setBal, getBal, sumBal, hk]
        ring
      · simp only [setBal, getBal, sumBal, hk, if_false, List.map_cons,
          List.sum_cons] at *
        rw [ih]
        ring

theorem mem_setBal {p : Nat × Int} {l : List (Nat × Int)} {id : Nat} {v : Int}
    (h : p ∈ setBal l id v) : p = (id, v) ∨ p ∈ l := by
  induction l with
  | nil => simpa [setBal] using h
  | cons q t ih =>
      obtain ⟨k, w⟩ := q
      by_cases hk : k = id
      · simp only [setBal, hk, if_true, List.mem_cons] at h
        rcases h with h | h
        · exact Or.inl h
        · exact Or.inr (List.mem_cons_of_mem _ h)
      · simp only [setBal, hk, if_false, List.mem_cons] at h
        rcases h with h | h
        · exact Or.inr (by simp [h])
        · rcases ih h with h' | h'
          · exact Or.inl h'
          · exact Or.inr (List.mem_cons_of_mem _ h')

theorem mem_keys_setBal {a : Nat} {l : List (Nat × Int)} {id : Nat} {v : Int}
    (h : a ∈ (setBal l id v).map Prod.fst) : a = id ∨ a ∈ l.map Prod.fst := by
  simp only [List.mem_map] at h
  obtain ⟨p, hp, rfl⟩ := h
  rcases mem_setBal hp with rfl | hp'
  · exact Or.inl rfl
  · exact Or.inr (List.mem_map_of_mem _ hp')

theorem nodup_keys_setBal {l : List (Nat × Int)} {id : Nat} {v : Int}
    (h : (l.map Prod.fst).Nodup) : ((setBal l id v).map Prod.fst).Nodup := by
  induction l with
  | nil => simp [setBal]
  | cons p t ih =>
      obtain ⟨k, w⟩ := p
      simp only [List.map_cons, List.nodup_cons] at h
      by_cases hk : k = id
      · subst hk
        rw [show setBal ((k, w) :: t) k v = (k, v) :: t by simp [setBal]]
        simp only [List.map_cons, List.nodup_cons]
        exact ⟨h.1, h.2⟩
      · simp only [setBal, if_neg hk, List.map_cons, List.nodup_cons]
        refine ⟨?_, ih h.2⟩
        intro hmem
        rcases mem_keys_setBal hmem with rfl | hmem'
        · exact hk rfl
        · exact h.1 hmem'

theorem sumBal_nonneg {l : List (Nat × Int)} (h : ∀ p ∈ l, 0 ≤ p.2) :
    0 ≤ sumBal l := by
  induction l with
  | nil => simp [sumBal]
  | cons p t ih =>
      simp only [sumBal, List.map_cons, List.sum_cons]
      have h1 : 0 ≤ p.2 := h p (List.mem_cons_self _ _)
      have h2 : 0 ≤ sumBal t := ih fun q hq => h q (List.mem_cons_of_mem _ hq)
      simpa [sumBal] using add_nonneg h1 h2

theorem getBal_nonneg {l : List (Nat × Int)} (h : ∀ p ∈ l, 0 ≤ p.2)
    (id : Nat) : 0 ≤ getBal l id := by
  induction l with
  | nil => simp [getBal]
  | cons p t ih =>
      obtain ⟨k, w⟩ := p
      by_cases hk : k = id
      · simpa [getBal, hk] using h (k, w) (List.mem_cons_self _ _)
      · simpa [getBal, hk] using ih fun q hq => h q (List.mem_cons_of_mem _ hq)

theorem getBal_le_sumBal {l : List (Nat × Int)} (h : ∀ p ∈ l, 0 ≤ p.2)
    (id : Nat) : getBal l id ≤ sumBal l := by
  induction l with
  | nil => simp [getBal, sumBal]
  | cons p t ih =>
      obtain ⟨k, w⟩ := p
      have ht : ∀ q ∈ t, 0 ≤ q.2 := fun q hq => h q (List.mem_cons_of_mem _ hq)
      by_cases hk : k = id
      · have h2 : 0 ≤ sumBal t := sumBal_nonneg ht
        have hg : getBal ((k, w) :: t) id = w := by simp [getBal, hk]
        simp only [sumBal, List.map_cons, List.sum_cons] at h2 ⊢
        rw [hg]
        linarith
      · have h1 : 0 ≤ w := h (k, w) (List.mem_cons_self _ _)
        have h2 := ih ht
        have hg : getBal ((k, w) :: t) id = getBal t id := by simp [getBal, hk]
        simp only [sumBal, List.map_cons, List.sum_cons] at h2 ⊢
        rw [hg]
        linarith

/-! ### Structural lemmas about the operations -/

theorem verify_ok_fields {s s1 : VState} {auth : Sig} {n : Int}
    (h : verify_and_consume_nonce s auth n = .ok s1) :
    s1.admin = s.admin ∧ s1.tokenId = s.tokenId ∧
      s1.totSupply = s.totSupply ∧ s1.balances = s.balances := by
  cases auth with
  | invoker c =>
      simp only [verify_and_consume_nonce] at h
      split at h
      · cases h
        exact ⟨rfl, rfl, rfl, rfl⟩
      · cases h
  | signed id =>
      simp only [verify_and_consume_nonce] at h
      split at h
      · cases h
        exact ⟨rfl, rfl, rfl, rfl⟩
      · cases h

theorem mint_shares_fields (s : VState) (dst : Nat) (sh : Int) :
    (mint_shares s dst sh).admin = s.admin ∧
      (mint_shares s dst sh).tokenId = s.tokenId ∧
      (mint_shares s dst sh).nonces = s.nonces ∧
      (mint_shares s dst sh).totSupply = s.totSupply + sh ∧
      (mint_shares s dst sh).balances
        = setBal s.balances dst (getBal s.balances dst + sh) :=
  ⟨rfl, rfl, rfl, rfl, rfl⟩

/-- Successful deposits factor into an admin check, a nonce check, and a
mint of the branch-dependent share amount. -/
theorem deposit_ok {s s' : VState} {B : Int} {auth : Sig} {n : Int}
    {frm : Nat} {amt : Int} (h : deposit s B auth n frm amt = .ok s') :
    ∃ s1, check_admin s auth = .ok () ∧
      verify_and_consume_nonce s auth n = .ok s1 ∧
      ((s1.totSupply = 0 ∧ s' = mint_shares s1 frm amt) ∨
        (s1.totSupply ≠ 0 ∧ B - amt ≠ 0 ∧
          s' = mint_shares s1 frm ((amt * s1.totSupply).tdiv (B - amt)))) := by
  simp only [deposit] at h
  cases hca : check_admin s auth with
  | error e =>
      simp only [hca] at h
      exact Except.noConfusion h
  | ok u =>
      cases u
      simp only [hca] at h
      cases hv : verify_and_consume_nonce s auth n with
      | error e =>
          simp only [hv] at h
          exact Except.noConfusion h
      | ok s1 =>
          simp only [hv] at h
          refine ⟨s1, rfl, rfl, ?_⟩
          by_cases h0 : get_tot_supply s1 = 0
          · rw [if_pos h0] at h
            simp only [Except.ok.injEq] at h
            exact Or.inl ⟨h0, h.symm⟩
          · rw [if_neg h0] at h
            simp only [bigDiv] at h
            by_cases hd : B - amt = 0
            · simp only [if_pos hd] at h
              exact Except.noConfusion h
            · simp only [if_neg hd, Except.ok.injEq] at h
              exact Or.inr ⟨h0, hd, h.symm⟩

/-- Successful withdraws factor into an admin check, a nonce check, a
well-defined division, and a burn. -/
theorem withdraw_ok {s s' : VState} {B : Int} {auth : Sig} {n : Int}
    {dst : Nat} {sh amt : Int}
    (h : withdraw s B auth n dst sh = .ok (s', amt)) :
    ∃ s1, check_admin s auth = .ok () ∧
      verify_and_consume_nonce s auth n = .ok s1 ∧
      s1.totSupply ≠ 0 ∧ amt = (sh * B).tdiv s1.totSupply ∧
      sh < getBal s1.balances dst ∧
      s' = { s1 with
             totSupply := s1.totSupply - sh
             balances := setBal s1.balances dst (getBal s1.balances dst - sh) } := by
  simp only [withdraw] at h
  cases hca : check_admin s auth with
  | error e =>
      simp only [hca] at h
      exact Except.noConfusion h
  | ok u =>
      cases u
      simp only [hca] at h
      cases hv : verify_and_consume_nonce s auth n with
      | error e =>
          simp only [hv] at h
          exact Except.noConfusion h
      | ok s1 =>
          simp only [hv] at h
          simp only [bigDiv, get_tot_supply] at h
          by_cases h0 : s1.totSupply = 0
          · simp only [if_pos h0] at h
            exact Except.noConfusion h
          · simp only [if_neg h0] at h
            simp only [burn_shares, get_id_balance, get_tot_supply] at h
            by_cases hlt : sh < getBal s1.balances dst
            · simp only [if_pos hlt, Except.ok.injEq, Prod.mk.injEq] at h
              exact ⟨s1, rfl, rfl, h0, h.2.symm, hlt, h.1.symm⟩
            · simp only [if_neg hlt] at h
              exact Except.noConfusion h

theorem initializeVault_ok {s s' : VState} {a t : Nat}
    (h : initializeVault s a t = .ok s') :
    s.admin = none ∧ s' = { s with admin := some a, tokenId := some t } := by
  simp only [initializeVault] at h
  by_cases ha : s.admin.isSome
  · simp only [if_pos ha] at h
    exact Except.noConfusion h
  · simp only [if_neg ha, Except.ok.injEq] at h
    refine ⟨?_, h.symm⟩
    cases hadm : s.admin with
    | none => rfl
    | some x => rw [hadm] at ha; simp at ha

theorem verify_signed_ok {s s1 : VState} {id : Nat} {n : Int}
    (h : verify_and_consume_nonce s (.signed id) n = .ok s1) :
    read_nonce s id = n ∧
      s1 = { s with
             nonces := fun j => if j = id then read_nonce s id + 1 else s.nonces j } := by
  simp only [verify_and_consume_nonce] at h
  by_cases he : read_nonce s id = n
  · simp only [if_pos he, Except.ok.injEq] at h
    exact ⟨he, h.symm⟩
  · simp only [if_neg he] at h
    exact Except.noConfusion h

theorem check_admin_cases (s : VState) (auth : Sig) :
    check_admin s auth = .ok () ∨ check_admin s auth = .error .notInitialized ∨
      check_admin s auth = .error .unauthorized := by
  cases hadm : s.admin with
  | none => exact Or.inr (Or.inl (by simp [check_admin, hadm]))
  | some a =>
      by_cases hid : auth.identifier = a
      · exact Or.inl (by simp [check_admin, hadm, hid])
      · exact Or.inr (Or.inr (by simp [check_admin, hadm, hid]))

theorem verify_cases (s : VState) (auth : Sig) (n : Int) :
    (∃ s1, verify_and_consume_nonce s auth n = .ok s1) ∨
      verify_and_consume_nonce s auth n = .error .invalidNonce := by
  cases auth with
  | invoker c =>
      simp only [verify_and_consume_nonce]
      by_cases hn : n = 0
      · exact Or.inl ⟨s, by rw [if_pos hn]⟩
      · exact Or.inr (by rw [if_neg hn])
  | signed id =>
      simp only [verify_and_consume_nonce]
      by_cases he : read_nonce s id = n
      · exact Or.inl ⟨_, by rw [if_pos he]⟩
      · exact Or.inr (by rw [if_neg he])

theorem sumBal_mint (s : VState) (dst : Nat) (x : Int) :
    sumBal (mint_shares s dst x).balances = sumBal s.balances + x ∧
      (mint_shares s dst x).totSupply = s.totSupply + x := by
  constructor
  · show sumBal (setBal s.balances dst (getBal s.balances dst + x)) = _
    rw [sumBal_setBal]
    ring
  · rfl

/-! ### Preservation of the accounting invariants -/

/-- Share-conservation: every successful operation moves the total supply
and the sum of balances by the same amount. -/
theorem step_preserves_sum {s s' : VState} (h : Step s s')
    (hs : sumBal s.balances = s.totSupply) :
    sumBal s'.balances = s'.totSupply := by
  cases h with
  | init a t heq =>
      obtain ⟨-, rfl⟩ := initializeVault_ok heq
      exact hs
  | dep B auth n frm amt heq =>
      obtain ⟨s1, -, hv, hbr⟩ := deposit_ok heq
      obtain ⟨-, -, hts, hbs⟩ := verify_ok_fields hv
      have hs1 : sumBal s1.balances = s1.totSupply := by rw [hbs, hts]; exact hs
      rcases hbr with ⟨h0, rfl⟩ | ⟨h0, hd, rfl⟩ <;>
        · obtain ⟨hm1, hm2⟩ := sumBal_mint s1 frm _
          rw [hm1, hm2, hs1]
  | wd B auth n dst sh amt heq =>
      obtain ⟨s1, -, hv, h0, hamt, hlt, rfl⟩ := withdraw_ok heq
      obtain ⟨-, -, hts, hbs⟩ := verify_ok_fields hv
      have hs1 : sumBal s1.balances = s1.totSupply := by rw [hbs, hts]; exact hs
      show sumBal (setBal s1.balances dst (getBal s1.balances dst - sh)) = _
      rw [sumBal_setBal, hs1]
      ring

/-- The invariant carried by the restricted (non-negative, landed deposits)
transition system. -/
def NNInv (s : VState) : Prop :=
  sumBal s.balances = s.totSupply ∧ ∀ p ∈ s.balances, 0 ≤ p.2

theorem NNInv.supply_nonneg {s : VState} (h : NNInv s) : 0 ≤ s.totSupply :=
  h.1 ▸ sumBal_nonneg h.2

theorem stepNN_preserves {s s' : VState} (h : StepNN s s') (hs : NNInv s) :
    NNInv s' := by
  cases h with
  | init a t heq =>
      obtain ⟨-, rfl⟩ := initializeVault_ok heq
      exact hs
  | dep B auth n frm amt hamt hB heq =>
      obtain ⟨s1, -, hv, hbr⟩ := deposit_ok heq
      obtain ⟨-, -, hts, hbs⟩ := verify_ok_fields hv
      have hs1 : NNInv s1 := ⟨by rw [hbs, hts]; exact hs.1, by rw [hbs]; exact hs.2⟩
      have key : ∀ x : Int, 0 ≤ x → NNInv (mint_shares s1 frm x) := by
        intro x hx
        obtain ⟨hm1, hm2⟩ := sumBal_mint s1 frm x
        refine ⟨by rw [hm1, hm2, hs1.1], ?_⟩
        intro p hp
        rcases mem_setBal hp with rfl | hp'
        · have := getBal_nonneg hs1.2 frm
          simpa using add_nonneg this hx
        · exact hs1.2 p hp'
      rcases hbr with ⟨h0, rfl⟩ | ⟨h0, hd, rfl⟩
      · exact key amt hamt
      · refine key _ (Int.tdiv_nonneg ?_ ?_)
        · exact mul_nonneg hamt hs1.supply_nonneg
        · omega
  | wd B auth n dst sh amt heq =>
      obtain ⟨s1, -, hv, h0, hamt, hlt, rfl⟩ := withdraw_ok heq
      obtain ⟨-, -, hts, hbs⟩ := verify_ok_fields hv
      have hs1 : NNInv s1 := ⟨by rw [hbs, hts]; exact hs.1, by rw [hbs]; exact hs.2⟩
      constructor
      · show sumBal (setBal s1.balances dst (getBal s1.balances dst - sh)) = _
        rw [sumBal_setBal, hs1.1]
        ring
      · intro p hp
        rcases mem_setBal hp with rfl | hp'
        · simp only
          omega
        · exact hs1.2 p hp'

theorem reachable_sum {s : VState} (h : Reachable s) :
    sumBal s.balances = s.totSupply := by
  induction h with
  | base => rfl
  | step hr hst ih => exact step_preserves_sum hst ih

/-- The balance store never acquires a duplicate key, so its list sum
really is the sum over identities. -/
theorem step_preserves_nodup {s s' : VState} (h : Step s s')
    (hn : (s.balances.map Prod.fst).Nodup) :
    (s'.balances.map Prod.fst).Nodup := by
  cases h with
  | init a t heq =>
      obtain ⟨-, rfl⟩ := initializeVault_ok heq
      exact hn
  | dep B auth n frm amt heq =>
      obtain ⟨s1, -, hv, hbr⟩ := deposit_ok heq
      obtain ⟨-, -, -, hbs⟩ := verify_ok_fields hv
      have hn1 : (s1.balances.map Prod.fst).Nodup := by rw [hbs]; exact hn
      rcases hbr with ⟨-, rfl⟩ | ⟨-, -, rfl⟩ <;> exact nodup_keys_setBal hn1
  | wd B auth n dst sh amt heq =>
      obtain ⟨s1, -, hv, -, -, -, rfl⟩ := withdraw_ok heq
      obtain ⟨-, -, -, hbs⟩ := verify_ok_fields hv
      have hn1 : (s1.balances.map Prod.fst).Nodup := by rw [hbs]; exact hn
      exact nodup_keys_setBal hn1

theorem reachable_nodup {s : VState} (h : Reachable s) :
    (s.balances.map Prod.fst).Nodup := by
  induction h with
  | base => exact List.nodup_nil
  | step hr hst ih => exact step_preserves_nodup hst ih

theorem reachableNN_inv {s : VState} (h : ReachableNN s) : NNInv s := by
  induction h with
  | base => exact ⟨rfl, by intro p hp; cases hp⟩
  | step hr hst ih => exact stepNN_preserves hst ih

/-! ### The environment-faithful invariant: positive supply forces a
positive vault token balance -/

theorem tdiv_lt_of_lt {sh v S : Int} (hv : 0 < v) (hS : 0 < S) (h0 : 0 ≤ sh)
    (hsh : sh < S) : (sh * v).tdiv S < v := by
  have hnum : 0 ≤ sh * v := mul_nonneg h0 (le_of_lt hv)
  rw [Int.tdiv_eq_ediv hnum (le_of_lt hS)]
  apply Int.ediv_lt_of_lt_mul hS
  have hm := mul_lt_mul_of_pos_right hsh hv
  nlinarith

theorem tdiv_nonpos_of_nonpos {a S : Int} (ha : a ≤ 0) (hS : 0 ≤ S) :
    a.tdiv S ≤ 0 := by
  have h1 : 0 ≤ (-a).tdiv S := Int.tdiv_nonneg (by omega) hS
  rw [Int.neg_tdiv] at h1
  omega

/-- The invariant of the environment-faithful system: share conservation,
non-negative balances, a non-negative vault token balance, and — the key
fact for the deposit denominator — a positive vault token balance whenever
the share supply is non-zero. -/
def GInv (s : VState) (v : Int) : Prop :=
  sumBal s.balances = s.totSupply ∧ (∀ p ∈ s.balances, 0 ≤ p.2) ∧
    0 ≤ v ∧ (s.totSupply ≠ 0 → 0 < v)

theorem gstep_preserves {s s' : VState} {v v' : Int}
    (h : GStep (s, v) (s', v')) (hg : GInv s v) : GInv s' v' := by
  obtain ⟨hsum, hpos, hv0, himp⟩ := hg
  cases h with
  | init _ _ _ a t heq =>
      obtain ⟨-, rfl⟩ := initializeVault_ok heq
      exact ⟨hsum, hpos, hv0, himp⟩
  | yield _ _ k hk =>
      exact ⟨hsum, hpos, by omega, fun h0 => by have := himp h0; omega⟩
  | dep _ _ _ auth n frm amt hamt heq =>
      obtain ⟨s1, -, hv, hbr⟩ := deposit_ok heq
      obtain ⟨-, -, hts, hbs⟩ := verify_ok_fields hv
      have hs1sum : sumBal s1.balances = s1.totSupply := by rw [hbs, hts]; exact hsum
      have hs1pos : ∀ p ∈ s1.balances, 0 ≤ p.2 := by rw [hbs]; exact hpos
      have key : ∀ x : Int, 0 ≤ x →
          sumBal (mint_shares s1 frm x).balances = (mint_shares s1 frm x).totSupply ∧
            ∀ p ∈ (mint_shares s1 frm x).balances, 0 ≤ p.2 := by
        intro x hx
        obtain ⟨hm1, hm2⟩ := sumBal_mint s1 frm x
        refine ⟨by rw [hm1, hm2, hs1sum], ?_⟩
        intro p hp
        rcases mem_setBal hp with rfl | hp'
        · have := getBal_nonneg hs1pos frm
          simpa using add_nonneg this hx
        · exact hs1pos p hp'
      rcases hbr with ⟨h0, rfl⟩ | ⟨h0, hd, rfl⟩
      · obtain ⟨k1, k2⟩ := key amt hamt
        refine ⟨k1, k2, by omega, fun hne => ?_⟩
        have hm2 := (sumBal_mint s1 frm amt).2
        rw [hm2, h0] at hne
        omega
      · have hden : (v + amt) - amt = v := by ring
        rw [hden] at hd
        have hS : 0 < s1.totSupply := by
          have := sumBal_nonneg hs1pos
          omega
        have hx : 0 ≤ (amt * s1.totSupply).tdiv ((v + amt) - amt) := by
          rw [hden]
          exact Int.tdiv_nonneg (mul_nonneg hamt (le_of_lt hS)) (by omega)
        obtain ⟨k1, k2⟩ := key _ hx
        have hvpos : 0 < v := by
          have := himp (by rw [← hts]; omega)
          omega
        exact ⟨k1, k2, by omega, fun _ => by omega⟩
  | wd _ _ _ auth n dst sh amt heq hamt =>
      obtain ⟨s1, -, hv, h0, hamteq, hlt, rfl⟩ := withdraw_ok heq
      obtain ⟨-, -, hts, hbs⟩ := verify_ok_fields hv
      have hs1sum : sumBal s1.balances = s1.totSupply := by rw [hbs, hts]; exact hsum
      have hs1pos : ∀ p ∈ s1.balances, 0 ≤ p.2 := by rw [hbs]; exact hpos
      have hS : 0 < s1.totSupply := by
        have := sumBal_nonneg hs1pos
        omega
      have hvpos : 0 < v := himp (by rw [← hts]; omega)
      have hamtlt : amt < v := by
        by_cases hsh : 0 ≤ sh
        · have hble : getBal s1.balances dst ≤ sumBal s1.balances :=
            getBal_le_sumBal hs1pos dst
          have hshS : sh < s1.totSupply := by omega
          rw [hamteq]
          exact tdiv_lt_of_lt hvpos hS hsh hshS
        · have : sh * v ≤ 0 := by nlinarith
          have := tdiv_nonpos_of_nonpos this (le_of_lt hS)
          omega
      refine ⟨?_, ?_, by omega, fun _ => by omega⟩
      · show sumBal (setBal s1.balances dst (getBal s1.balances dst - sh)) = _
        rw [sumBal_setBal, hs1sum]
        ring
      · intro p hp
        rcases mem_setBal hp with rfl | hp'
        · simp only
          omega
        · exact hs1pos p hp'

theorem greachable_inv {g : GState} (h : GReachable g) : GInv g.1 g.2 := by
  induction h with
  | base =>
      exact ⟨rfl, fun p hp => absurd hp (List.not_mem_nil p), le_refl 0,
        fun h0 => absurd rfl h0⟩
  | step hr hst ih =>
      rename_i g g'
      obtain ⟨s, v⟩ := g
      obtain ⟨s', v'⟩ := g'
      exact gstep_preserves hst ih

/-! ### Concrete states used by witnesses and counterexamples.

They follow the repository's own test scenario: admin identity `0`,
token id `7`, user identities `1` and `2`; user 1 deposits 5, user 2
deposits 8, a yield of 13 arrives, user 1 withdraws 3 shares. -/

/-- State after `initialize(0, 7)`. -/
def sA : VState := ⟨some 0, some 7, 0, [], fun _ => 0⟩

/-- State after user 1 additionally deposited 5 (vault token balance 5). -/
def sB : VState := ⟨some 0, some 7, 5, [(1, 5)], fun _ => 0⟩

/-- State after user 2 additionally deposited 8 (vault token balance 13). -/
def sC : VState := ⟨some 0, some 7, 13, [(1, 5), (2, 8)], fun _ => 0⟩

/-- State after a yield of 13 arrived and user 1 withdrew 3 shares. -/
def sD : VState := ⟨some 0, some 7, 10, [(1, 2), (2, 8)], fun _ => 0⟩

/-- Like `sC`, but the second deposit was authorized by the signed variant,
consuming the admin's nonce 0. -/
def sCs : VState := ⟨some 0, some 7, 13, [(1, 5), (2, 8)], fun j => if j = 0 then 1 else 0⟩

/-- State reached from `sA` by depositing the negative amount `-1`. -/
def sNeg : VState := ⟨some 0, some 7, -1, [(1, -1)], fun _ => 0⟩

/-! ### The claims -/

/-- C1, counterexample: the state with total supply `-1` (and a balance of
`-1` for identity 1) is reachable — `initialize(0, 7)` followed by an
admin-authorized `deposit` of amount `-1`, which the code accepts and which
mints `-1` shares — so not every reachable state has a non-negative supply
and non-negative balances. -/
theorem C1_counterexample :
    Reachable sNeg ∧ sNeg.totSupply < 0 ∧ getBal sNeg.balances 1 < 0 := by
  refine ⟨?_, by decide, by decide⟩
  have h1 : Step initState sA := Step.init initState sA 0 7 rfl
  have hd : deposit sA 0 (Sig.invoker 0) 0 1 (-1) = .ok sNeg := by rfl
  have h2 : Step sA sNeg := Step.dep sA sNeg 0 (Sig.invoker 0) 0 1 (-1) hd
  exact Reachable.step (Reachable.step Reachable.base h1) h2

/-- C1 (amended): in every state reachable by successful
initialize/deposit/withdraw operations, the sum of all per-identity share
balances equals the stored total share supply; if moreover every deposit in
the history had a non-negative amount that had landed in the observed token
balance, supply and all balances are also non-negative.  (As stated the
claim fails: the code does not validate amounts, and a deposit of a
negative amount produces a reachable state with negative supply and
balance, see the counterexample.) -/
theorem C1_invariant :
    (∀ s, Reachable s →
      (s.balances.map Prod.fst).Nodup ∧ sumBal s.balances = s.totSupply) ∧
      (∀ s, ReachableNN s →
        sumBal s.balances = s.totSupply ∧ 0 ≤ s.totSupply ∧
          ∀ p ∈ s.balances, 0 ≤ p.2) := by
  constructor
  · intro s h
    exact ⟨reachable_nodup h, reachable_sum h⟩
  · intro s h
    have hi := reachableNN_inv h
    exact ⟨hi.1, hi.supply_nonneg, hi.2⟩

/-- Witness for C1 at the state reached by `initialize(0, 7)` followed by a
landed deposit of 5 for identity 1. -/
theorem C1_invariant_witness :
    ReachableNN sB ∧
      (sumBal sB.balances = sB.totSupply ∧ 0 ≤ sB.totSupply ∧
        ∀ p ∈ sB.balances, 0 ≤ p.2) := by
  have h1 : StepNN initState sA := StepNN.init initState sA 0 7 rfl
  have h2 : StepNN sA sB :=
    StepNN.dep sA sB 5 (Sig.invoker 0) 0 1 5 (by decide) (by decide) rfl
  have hr : ReachableNN sB :=
    ReachableNN.step (ReachableNN.step ReachableNN.base h1) h2
  exact ⟨hr, C1_invariant.2 sB hr⟩

/-- C2: a successful deposit of amount `A` for beneficiary `frm` mints
exactly `A` shares to `frm` when the stored total supply is zero, and
exactly `(A * total_supply).tdiv (B - A)` shares otherwise, where `B` is
the token balance read after the deposit landed (`tdiv` = division
truncating toward zero, the `BigInt` division); other balances are
untouched. -/
theorem C2_deposit_conversion {s s' : VState} {B : Int} {auth : Sig}
    {n : Int} {frm : Nat} {amt : Int}
    (h : deposit s B auth n frm amt = .ok s') :
    (s.totSupply = 0 →
      s'.totSupply = s.totSupply + amt ∧
        get_shares s' frm = get_shares s frm + amt) ∧
      (s.totSupply ≠ 0 →
        s'.totSupply = s.totSupply + (amt * s.totSupply).tdiv (B - amt) ∧
          get_shares s' frm = get_shares s frm + (amt * s.totSupply).tdiv (B - amt)) ∧
      ∀ j, j ≠ frm → get_shares s' j = get_shares s j := by
  obtain ⟨s1, -, hv, hbr⟩ := deposit_ok h
  obtain ⟨-, -, hts, hbs⟩ := verify_ok_fields hv
  rcases hbr with ⟨h0, rfl⟩ | ⟨h0, hd, rfl⟩
  · rw [hts] at h0
    refine ⟨fun _ => ⟨?_, ?_⟩, fun hne => absurd h0 hne, ?_⟩
    · show s1.totSupply + amt = s.totSupply + amt
      rw [hts]
    · show getBal (setBal s1.balances frm (getBal s1.balances frm + amt)) frm = _
      rw [getBal_setBal_self, hbs]
      rfl
    · intro j hj
      show getBal (setBal s1.balances frm _) j = _
      rw [getBal_setBal_ne _ _ hj, hbs]
      rfl
  · rw [hts] at h0
    refine ⟨fun he => absurd he h0, fun _ => ⟨?_, ?_⟩, ?_⟩
    · show s1.totSupply + (amt * s1.totSupply).tdiv (B - amt) = _
      rw [hts]
    · show getBal (setBal s1.balances frm
        (getBal s1.balances frm + (amt * s1.totSupply).tdiv (B - amt))) frm = _
      rw [getBal_setBal_self, hbs, hts]
      rfl
    · intro j hj
      show getBal (setBal s1.balances frm _) j = _
      rw [getBal_setBal_ne _ _ hj, hbs]
      rfl

/-- Witness for C2: with supply 5 and post-deposit balance 13, depositing 8
mints `(8 * 5).tdiv (13 - 8) = 8` shares to identity 2 and leaves identity
1 untouched (the repository's own test scenario). -/
theorem C2_deposit_conversion_witness :
    deposit sB 13 (Sig.invoker 0) 0 2 8 = .ok sC ∧
      (sB.totSupply ≠ 0 →
        sC.totSupply = sB.totSupply + (8 * sB.totSupply).tdiv (13 - 8) ∧
          get_shares sC 2 = get_shares sB 2 + (8 * sB.totSupply).tdiv (13 - 8)) ∧
      get_shares sC 1 = get_shares sB 1 := by
  have h : deposit sB 13 (Sig.invoker 0) 0 2 8 = .ok sC := rfl
  exact ⟨h, (C2_deposit_conversion h).2.1,
    (C2_deposit_conversion h).2.2 1 (by decide)⟩

/-- C3: a successful withdraw of `sh` shares to beneficiary `dst`, with
token balance `B` and total supply read before the burn, transfers exactly
`(sh * B).tdiv totSupply` (division truncating toward zero) and burns the
original `sh`: total supply and the beneficiary's balance each decrease by
exactly `sh`, other balances are untouched. -/
theorem C3_withdraw_conversion {s s' : VState} {B : Int} {auth : Sig}
    {n : Int} {dst : Nat} {sh amt : Int}
    (h : withdraw s B auth n dst sh = .ok (s', amt)) :
    amt = (sh * B).tdiv s.totSupply ∧
      s'.totSupply = s.totSupply - sh ∧
      get_shares s' dst = get_shares s dst - sh ∧
      ∀ j, j ≠ dst → get_shares s' j = get_shares s j := by
  obtain ⟨s1, -, hv, h0, hamteq, hlt, rfl⟩ := withdraw_ok h
  obtain ⟨-, -, hts, hbs⟩ := verify_ok_fields hv
  refine ⟨by rw [hamteq, hts], ?_, ?_, ?_⟩
  · show s1.totSupply - sh = _
    rw [hts]
  · show getBal (setBal s1.balances dst (getBal s1.balances dst - sh)) dst = _
    rw [getBal_setBal_self, hbs]
    rfl
  · intro j hj
    show getBal (setBal s1.balances dst _) j = _
    rw [getBal_setBal_ne _ _ hj, hbs]
    rfl

/-- Witness for C3: with supply 13 and token balance 26 (a yield of 13
landed), withdrawing 3 shares for identity 1 transfers
`(3 * 26).tdiv 13 = 6` and burns 3 shares (the repository's own test
scenario). -/
theorem C3_withdraw_conversion_witness :
    withdraw sC 26 (Sig.invoker 0) 0 1 3 = .ok (sD, 6) ∧
      ((6 : Int) = ((3 : Int) * 26).tdiv sC.totSupply ∧
        sD.totSupply = sC.totSupply - 3 ∧
        get_shares sD 1 = get_shares sC 1 - 3 ∧
        get_shares sD 2 = get_shares sC 2) := by
  have h : withdraw sC 26 (Sig.invoker 0) 0 1 3 = .ok (sD, 6) := rfl
  have hc := C3_withdraw_conversion h
  exact ⟨h, hc.1, hc.2.1, hc.2.2.1, hc.2.2.2 2 (by decide)⟩

/-- C4: `burn_shares` fails with `InsufficientShares` whenever the
requested amount is not strictly below the stored balance — in particular
when it equals the full balance — and (failure aborting the transaction) no
state results; burning strictly less succeeds and decreases supply and the
balance by the amount; accordingly a withdraw only ever succeeds when the
requested share amount is strictly below the beneficiary's balance. -/
theorem C4_burn_floor :
    (∀ s dst sh, get_id_balance s dst ≤ sh →
      burn_shares s dst sh = .error .insufficientShares) ∧
      (∀ s dst sh, sh < get_id_balance s dst → ∃ s',
        burn_shares s dst sh = .ok s' ∧ s'.totSupply = s.totSupply - sh ∧
          get_id_balance s' dst = get_id_balance s dst - sh) ∧
      ∀ s B auth n dst sh out, withdraw s B auth n dst sh = .ok out →
        sh < get_shares s dst := by
  refine ⟨?_, ?_, ?_⟩
  · intro s dst sh hle
    simp only [burn_shares]
    rw [if_neg (by omega)]
  · intro s dst sh hlt
    refine ⟨_, by simp only [burn_shares]; rw [if_pos hlt], rfl, ?_⟩
    show getBal (setBal s.balances dst (getBal s.balances dst - sh)) dst = _
    rw [getBal_setBal_self]
    rfl
  · intro s B auth n dst sh out hw
    obtain ⟨s', amt⟩ := out
    obtain ⟨s1, -, hv, -, -, hlt, -⟩ := withdraw_ok hw
    obtain ⟨-, -, -, hbs⟩ := verify_ok_fields hv
    rw [hbs] at hlt
    exact hlt

/-- Witness for C4: in `sB` identity 1 holds 5 shares; burning 5 (the full
balance) fails with `InsufficientShares`, burning 3 succeeds. -/
theorem C4_burn_floor_witness :
    get_id_balance sB 1 ≤ 5 ∧
      burn_shares sB 1 5 = .error .insufficientShares ∧
      (3 : Int) < get_id_balance sB 1 ∧
      ∃ s', burn_shares sB 1 3 = .ok s' ∧ s'.totSupply = sB.totSupply - 3 ∧
        get_id_balance s' 1 = get_id_balance sB 1 - 3 :=
  ⟨by decide, C4_burn_floor.1 sB 1 5 (by decide), by decide,
    C4_burn_floor.2.1 sB 1 3 (by decide)⟩

/-- C5: for the signed authorization variant, the nonce check accepts
exactly the identity's currently stored nonce (a mismatch fails with
`InvalidNonce`, and failure aborts the call persisting nothing); on success
the stored nonce of that identity is incremented by exactly 1 and no other
nonce changes, so replaying the same claimed nonce immediately fails; the
same holds through the public `deposit` and `withdraw` operations. -/
theorem C5_signed_nonce :
    (∀ s id n, n ≠ read_nonce s id →
      verify_and_consume_nonce s (.signed id) n = .error .invalidNonce) ∧
      (∀ s id n, n = read_nonce s id → ∃ s',
        verify_and_consume_nonce s (.signed id) n = .ok s' ∧
          read_nonce s' id = read_nonce s id + 1 ∧
          (∀ j, j ≠ id → read_nonce s' j = read_nonce s j) ∧
          verify_and_consume_nonce s' (.signed id) n = .error .invalidNonce) ∧
      (∀ s s' B n frm amt id, deposit s B (.signed id) n frm amt = .ok s' →
        n = read_nonce s id ∧ read_nonce s' id = read_nonce s id + 1) ∧
      ∀ s s' B n dst sh amt id, withdraw s B (.signed id) n dst sh = .ok (s', amt) →
        n = read_nonce s id ∧ read_nonce s' id = read_nonce s id + 1 := by
  refine ⟨?_, ?_, ?_, ?_⟩
  · intro s id n hne
    simp only [verify_and_consume_nonce]
    rw [if_neg fun e => hne e.symm]
  · intro s id n he
    refine ⟨_, by simp only [verify_and_consume_nonce]; rw [if_pos he.symm], ?_, ?_, ?_⟩
    · show (if id = id then read_nonce s id + 1 else s.nonces id) = _
      rw [if_pos rfl]
    · intro j hj
      show (if j = id then read_nonce s id + 1 else s.nonces j) = _
      rw [if_neg hj]
      rfl
    · have hx : read_nonce
          { s with nonces := fun j => if j = id then read_nonce s id + 1 else s.nonces j }
          id = read_nonce s id + 1 := by
        show (if id = id then read_nonce s id + 1 else s.nonces id) = _
        rw [if_pos rfl]
      simp only [verify_and_consume_nonce]
      rw [if_neg (by rw [hx]; omega)]
  · intro s s' B n frm amt id h
    obtain ⟨s1, -, hv, hbr⟩ := deposit_ok h
    obtain ⟨hn, hs1⟩ := verify_signed_ok hv
    subst hs1
    have hread : ∀ x : Int, read_nonce (mint_shares
        { s with nonces := fun j => if j = id then read_nonce s id + 1 else s.nonces j }
        frm x) id = read_nonce s id + 1 := by
      intro x
      show (if id = id then read_nonce s id + 1 else s.nonces id) = _
      rw [if_pos rfl]
    rcases hbr with ⟨-, rfl⟩ | ⟨-, -, rfl⟩
    · exact ⟨hn.symm, hread _⟩
    · exact ⟨hn.symm, hread _⟩
  · intro s s' B n dst sh amt id h
    obtain ⟨s1, -, hv, -, -, -, rfl⟩ := withdraw_ok h
    obtain ⟨hn, hs1⟩ := verify_signed_ok hv
    subst hs1
    refine ⟨hn.symm, ?_⟩
    show (if id = id then read_nonce s id + 1 else s.nonces id) = _
    rw [if_pos rfl]

/-- Witness for C5: in `sB` every stored nonce is 0; claiming nonce 1 for
identity 3 fails, claiming nonce 0 succeeds and stores 1; a deposit signed
by the admin (identity 0) with nonce 0 succeeds and stores nonce 1. -/
theorem C5_signed_nonce_witness :
    verify_and_consume_nonce sB (.signed 3) 1 = .error .invalidNonce ∧
      (∃ s', verify_and_consume_nonce sB (.signed 3) 0 = .ok s' ∧
        read_nonce s' 3 = read_nonce sB 3 + 1 ∧
        (∀ j, j ≠ 3 → read_nonce s' j = read_nonce sB j) ∧
        verify_and_consume_nonce s' (.signed 3) 0 = .error .invalidNonce) ∧
      deposit sB 13 (Sig.signed 0) 0 2 8 = .ok sCs ∧
      ((0 : Int) = read_nonce sB 0 ∧ read_nonce sCs 0 = read_nonce sB 0 + 1) := by
  have hd : deposit sB 13 (Sig.signed 0) 0 2 8 = .ok sCs := by rfl
  exact ⟨C5_signed_nonce.1 sB 3 1 (by decide),
    C5_signed_nonce.2.1 sB 3 0 (by decide),
    hd,
    C5_signed_nonce.2.2.1 sB sCs 13 0 2 8 0 hd⟩

/-- C6: for the direct-invoker authorization variant the nonce check
succeeds exactly when the claimed nonce is zero — any other value fails
with `InvalidNonce` — and the state (in particular every stored nonce) is
returned completely unchanged: no nonce is consumed on the invoker path. -/
theorem C6_invoker_nonce :
    (∀ s c n s', verify_and_consume_nonce s (.invoker c) n = .ok s' →
      n = 0 ∧ s' = s) ∧
      (∀ s c, verify_and_consume_nonce s (.invoker c) 0 = .ok s) ∧
      ∀ s c n, n ≠ 0 →
        verify_and_consume_nonce s (.invoker c) n = .error .invalidNonce := by
  refine ⟨?_, ?_, ?_⟩
  · intro s c n s' h
    simp only [verify_and_consume_nonce] at h
    by_cases hn : n = 0
    · rw [if_pos hn] at h
      simp only [Except.ok.injEq] at h
      exact ⟨hn, h.symm⟩
    · rw [if_neg hn] at h
      exact Except.noConfusion h
  · intro s c
    simp [verify_and_consume_nonce]
  · intro s c n hn
    simp only [verify_and_consume_nonce]
    rw [if_neg hn]

/-- Witness for C6 at `sB`, invoker identity 0: nonce 0 passes leaving the
state untouched, nonce 5 fails. -/
theorem C6_invoker_nonce_witness :
    ((0 : Int) = 0 ∧ sB = sB) ∧
      verify_and_consume_nonce sB (.invoker 0) 0 = .ok sB ∧
      verify_and_consume_nonce sB (.invoker 0) 5 = .error .invalidNonce :=
  ⟨C6_invoker_nonce.1 sB 0 0 sB rfl, C6_invoker_nonce.2.1 sB 0,
    C6_invoker_nonce.2.2 sB 0 5 (by decide)⟩

/-- C7: a deposit or withdraw whose authorization proof resolves to an
identity different from the stored administrator fails with the
authorization error (`Unauthorized`), for any claimed nonce and amounts:
the admin check runs before the nonce check and before any accounting, and
the aborted call persists nothing. -/
theorem C7_admin_gate {s : VState} {a : Nat} {auth : Sig}
    (hadm : s.admin = some a) (hne : auth.identifier ≠ a) :
    (∀ B n frm amt, deposit s B auth n frm amt = .error .unauthorized) ∧
      ∀ B n dst sh, withdraw s B auth n dst sh = .error .unauthorized := by
  have hca : check_admin s auth = .error .unauthorized := by
    simp [check_admin, hadm, hne]
  constructor
  · intro B n frm amt
    simp only [deposit, hca]
  · intro B n dst sh
    simp only [withdraw, hca]

/-- Witness for C7: in `sB` the admin is identity 0; an invoker proof from
identity 3 is rejected by both operations, even with a wrong nonce. -/
theorem C7_admin_gate_witness :
    deposit sB 13 (Sig.invoker 3) 4 1 5 = .error .unauthorized ∧
      withdraw sB 13 (Sig.invoker 3) 4 1 3 = .error .unauthorized := by
  have h := C7_admin_gate (show sB.admin = some 0 from rfl)
    (show Sig.identifier (.invoker 3) ≠ 0 by decide)
  exact ⟨h.1 13 4 1 5, h.2 13 4 1 3⟩

/-- C8: `initialize(admin, token_id)` fails with `AlreadyInitialized`
whenever an administrator is already stored (persisting nothing, since the
call aborts), and otherwise stores the given administrator and token id;
once stored, no successful operation ever changes either again. -/
theorem C8_initialize_once :
    (∀ s a t, s.admin.isSome →
      initializeVault s a t = .error .alreadyInitialized) ∧
      (∀ s a t, s.admin = none →
        initializeVault s a t = .ok { s with admin := some a, tokenId := some t }) ∧
      ∀ s s', Step s s' → s.admin.isSome →
        s'.admin = s.admin ∧ s'.tokenId = s.tokenId := by
  refine ⟨?_, ?_, ?_⟩
  · intro s a t h
    simp only [initializeVault]
    rw [if_pos h]
  · intro s a t h
    simp only [initializeVault]
    rw [if_neg (by simp [h])]
  · intro s s' hst hsome
    cases hst with
    | init a t heq =>
        obtain ⟨hnone, -⟩ := initializeVault_ok heq
        rw [hnone] at hsome
        simp at hsome
    | dep B auth n frm amt heq =>
        obtain ⟨s1, -, hv, hbr⟩ := deposit_ok heq
        obtain ⟨ha, ht, -, -⟩ := verify_ok_fields hv
        rcases hbr with ⟨-, rfl⟩ | ⟨-, -, rfl⟩ <;> exact ⟨ha, ht⟩
    | wd B auth n dst sh amt heq =>
        obtain ⟨s1, -, hv, -, -, -, rfl⟩ := withdraw_ok heq
        obtain ⟨ha, ht, -, -⟩ := verify_ok_fields hv
        exact ⟨ha, ht⟩

/-- Witness for C8: re-initializing `sA` fails, initializing the empty
store succeeds, and the deposit step from `sA` to `sB` leaves admin and
token id unchanged. -/
theorem C8_initialize_once_witness :
    initializeVault sA 9 9 = .error .alreadyInitialized ∧
      initializeVault initState 0 7 =
        .ok { initState with admin := some 0, tokenId := some 7 } ∧
      (sB.admin = sA.admin ∧ sB.tokenId = sA.tokenId) := by
  have hstep : Step sA sB := Step.dep sA sB 5 (Sig.invoker 0) 0 1 5 (by rfl)
  exact ⟨C8_initialize_once.1 sA 9 9 (by decide),
    C8_initialize_once.2.1 initState 0 7 rfl,
    C8_initialize_once.2.2 sA sB hstep (by decide)⟩

/-- C9: in any state of the environment-faithful system (deposits of
non-negative amounts that have landed, non-negative yield, withdrawals
paying out via the token) in which the share-accounting invariants hold by
construction, if the total supply is non-zero then the vault's token
balance `v` is positive, hence for any deposit of a landed amount `amt` the
denominator `(v + amt) - amt` of the conversion is non-zero and the deposit
can never abort with a division by zero. -/
theorem C9_denominator {s : VState} {v : Int} (h : GReachable (s, v))
    (h0 : s.totSupply ≠ 0) :
    0 < v ∧ ∀ auth n frm amt,
      (v + amt) - amt ≠ 0 ∧
        deposit s (v + amt) auth n frm amt ≠ .error .divByZero := by
  obtain ⟨hsum, hpos, hv0, himp⟩ := greachable_inv h
  have hvpos : 0 < v := himp h0
  refine ⟨hvpos, ?_⟩
  intro auth n frm amt
  refine ⟨by omega, ?_⟩
  intro hcontra
  rcases check_admin_cases s auth with hca | hca | hca
  · rcases verify_cases s auth n with ⟨s1, hv⟩ | hv
    · obtain ⟨-, -, hts, -⟩ := verify_ok_fields hv
      simp only [deposit, hca, hv] at hcontra
      have hS : ¬ get_tot_supply s1 = 0 := by
        simp only [get_tot_supply]
        omega
      rw [if_neg hS] at hcontra
      simp only [bigDiv] at hcontra
      have hden : ¬ ((v + amt) - amt = 0) := by omega
      simp only [if_neg hden] at hcontra
      exact Except.noConfusion hcontra
    · simp only [deposit, hca, hv] at hcontra
      exact absurd (Except.error.inj hcontra) (by decide)
  · simp only [deposit, hca] at hcontra
    exact absurd (Except.error.inj hcontra) (by decide)
  · simp only [deposit, hca] at hcontra
    exact absurd (Except.error.inj hcontra) (by decide)

/-- Witness for C9 at the reachable configuration `(sB, 5)` (supply 5,
vault token balance 5): a further landed deposit of 3 has a non-zero
denominator and cannot hit the division by zero. -/
theorem C9_denominator_witness :
    0 < (5 : Int) ∧ ((5 : Int) + 3) - 3 ≠ 0 ∧
      deposit sB (5 + 3) (Sig.invoker 0) 0 3 3 ≠ .error .divByZero := by
  have h1 : GReachable (sA, (0 : Int)) :=
    GReachable.step GReachable.base (GStep.init initState sA 0 0 7 rfl)
  have hd : deposit sA ((0 : Int) + 5) (Sig.invoker 0) 0 1 5 = .ok sB := by rfl
  have h2 : GReachable (sB, (5 : Int)) :=
    GReachable.step h1 (GStep.dep sA sB 0 (Sig.invoker 0) 0 1 5 (by decide) hd)
  have h := C9_denominator h2 (by decide)
  exact ⟨h.1, h.2 (Sig.invoker 0) 0 3 3⟩

/-- C10: a withdraw attempted while the stored total supply is zero — even
with a passing admin check and nonce check — aborts in the amount
computation with a division by zero (persisting nothing, as the call
aborts), an error distinct from every failure the specification lists for
withdraw. -/
theorem C10_withdraw_zero_supply {s s1 : VState} {auth : Sig} {n : Int}
    (hadm : s.admin = some auth.identifier)
    (hv : verify_and_consume_nonce s auth n = .ok s1)
    (h0 : s.totSupply = 0) :
    ∀ B dst sh, withdraw s B auth n dst sh = .error .divByZero ∧
      (Err.divByZero ≠ Err.unauthorized ∧ Err.divByZero ≠ Err.invalidNonce ∧
        Err.divByZero ≠ Err.insufficientShares ∧
        Err.divByZero ≠ Err.notInitialized) := by
  intro B dst sh
  have hca : check_admin s auth = .ok () := by simp [check_admin, hadm]
  have hts := (verify_ok_fields hv).2.2.1
  refine ⟨?_, by decide, by decide, by decide, by decide⟩
  simp only [withdraw, hca, hv, bigDiv, get_tot_supply]
  rw [hts, h0]
  simp

/-- Witness for C10: withdrawing from the freshly initialized state `sA`
(supply 0) with the admin's own invoker proof and nonce 0 hits the
division by zero. -/
theorem C10_withdraw_zero_supply_witness :
    withdraw sA 5 (Sig.invoker 0) 0 1 0 = .error .divByZero ∧
      (Err.divByZero ≠ Err.unauthorized ∧ Err.divByZero ≠ Err.invalidNonce ∧
        Err.divByZero ≠ Err.insufficientShares ∧
        Err.divByZero ≠ Err.notInitialized) := by
  have hv : verify_and_consume_nonce sA (Sig.invoker 0) 0 = .ok sA := by rfl
  exact C10_withdraw_zero_supply rfl hv rfl 5 1 0

end Vault
